import Mathlib

/-!
# Verification of the succotash feature-extraction core

Shallow embedding of the feature extraction and comparison logic of the
succotash repository (`src/src/analyze/features/`):

* `LsHash` (`lshash.rs`): a 64-bit locality-sensitive hash, its derived
  `PartialEq` and its hand-written `PartialOrd` based on `count_ones`,
  and the extraction fold in `LsHash::find`.
* `Hue` (`hue.rs`): the mean-color hue extraction loop in `Hue::find`
  and the normalization in `Hue::new`.
* `ImgFeatures` (`mod.rs`): the derived lexicographic `PartialOrd`
  over the pair (lshash, hue).

Machine integers are modelled as `Nat`.  `u64` values are naturals below
`2 ^ 64`; the two accumulator folds in `LsHash::find` are embedded without a
wrap because their accumulators provably stay below `2 ^ 64` on the 64-sample
inputs they receive (see `sumSamples_le` and `lshashFind_lt`), so u64 overflow
cannot occur.  `f64` values that the settled claims touch are either exact
integers, dyadic rationals (where f64 arithmetic is exact) or NaN, so the hue
pipeline is embedded over `ℚ` with an explicit NaN constructor for the
division-by-zero case.
-/

namespace Succotash

/-- Rust `u64::count_ones` on a value below `2 ^ 64`: the number of set bits among
bit positions 0..63. -/
def popcount64 (x : Nat) : Nat :=
  ((List.range 64).filter fun i => x.testBit i).length

/-- The derived `PartialEq` on `LsHash` (`#[derive(PartialEq, Eq)]` on a
newtype over `u64`): bit-exact equality of the underlying value. -/
def lsBeq (a b : Nat) : Bool :=
  a == b

/-- The hand-written `impl PartialOrd for LsHash` (`lshash.rs`): compare by `count_ones`;
`Less` / `Greater` when the popcounts differ, `None` otherwise. -/
def lsPartialCmp (a b : Nat) : Option Ordering :=
  let selfOnes := popcount64 a
  let otherOnes := popcount64 b
  if selfOnes < otherOnes then
    some Ordering.lt
  else if selfOnes > otherOnes then
    some Ordering.gt
  else
    none

/-- Rust `struct ImgFeatures { lshash: LsHash, hue: Hue }` (`features/mod.rs`).
The `lshash` field is the `u64` payload; the `hue` field is the `f64` payload,
modelled as `ℚ` (the settled claims only evaluate it on exact values). -/
structure ImgFeatures where
  lshash : Nat
  hue : ℚ
deriving DecidableEq

/-- The derived `PartialOrd::partial_cmp` on `Hue` (a newtype over `f64`):
`f64::partial_cmp`, which on the non-NaN values the claims evaluate is the
total order on the real value. -/
def huePartialCmp (a b : ℚ) : Option Ordering :=
  some (compare a b)

/-- The derived `PartialOrd::partial_cmp` on `ImgFeatures`
(`#[derive(PartialEq, PartialOrd)]`): compare the fields in declaration
order; only a `Some(Equal)` on the first field passes control to the second
field, and any other outcome (including `None`) is returned as is. -/
def imgFeaturesPartialCmp (x y : ImgFeatures) : Option Ordering :=
  match lsPartialCmp x.lshash y.lshash with
  | some Ordering.eq => huePartialCmp x.hue y.hue
  | c => c

/-! ## `LsHash::find` (`lshash.rs`)

`LsHash::find` grayscales the input and resizes it to 8×8 through the external
`image` crate, then works on the resulting byte buffer of exactly 64 grayscale
samples.  The embedding starts at that buffer: a `List Nat` of u8 samples. -/

/-- The summation fold in `LsHash::find`:
`fold(0u64, |acc, v| acc + u64::from(*v))` over the sample bytes.  The u64
accumulator is embedded as `Nat`: on the 64-sample inputs the fold receives it
is bounded by `64 * 255` (`sumSamples_le`), so u64 overflow cannot occur. -/
def sumSamples (samples : List Nat) : Nat :=
  samples.foldl (fun acc v => acc + v) 0

/-- Rust `grayscale_8x8_sum / 64`: the integer (floor) mean of the samples. -/
def meanSamples (samples : List Nat) : Nat :=
  sumSamples samples / 64

/-- Rust `u8::try_from`: succeeds exactly on values representable as a `u8`.  The
source unwraps it with `expect(...)`, which panics on `none`. -/
def tryFromU8 (n : Nat) : Option Nat :=
  if n ≤ 255 then some n else none

/-- The bit-packing fold in `LsHash::find`:
`fold((0u8, 0u64), |(counter, acc), v| { let bit = *v >= mean; let
bit_positioned = u64::from(bit) << counter; (counter + 1, acc + bit_positioned)
})`, keeping the `acc` component.  `u64::from(bit) << counter` is embedded as
`(if bit then 1 else 0) * 2 ^ counter`; on the 64-sample inputs the fold
receives, `counter` stays in 0..63 at every shift and the accumulator stays
below `2 ^ 64` (`lshashFind_lt`), so neither the u8 counter, the shift, nor
the u64 accumulator can overflow. -/
def lshashFold (samples : List Nat) (mean : Nat) : Nat :=
  (samples.foldl
    (fun (p : Nat × Nat) v =>
      (p.1 + 1, p.2 + (if v ≥ mean then 1 else 0) * 2 ^ p.1))
    (0, 0)).2

/-- Function `LsHash::find`, starting from the 64 reduced grayscale samples: compute
the integer mean, then pack bit *i* = (`samples[i] >= mean`) at position *i*.
(The `expect` on `u8::try_from` is modelled separately by `tryFromU8`; the
packing fold compares against `sum / 64` exactly as the source does.) -/
def lshashFind (samples : List Nat) : Nat :=
  lshashFold samples (meanSamples samples)

/-! ## `Hue::find` and `Hue::new` (`hue.rs`)

`Hue::find` sums `bytes[i]`, `bytes[i + 1]`, `bytes[i + 2]` into a
`(f64, f64, f64)` accumulator for `i in 0..pixels` with
`pixels = bytes.len() / 3`, divides each component by `pixels as f64`,
converts the resulting RGB triple to HSV through the external `prisma` crate
and normalizes the hue angle through the external `angle` crate.

The f64 sums of byte values are exact integers, so the accumulator is embedded
over `ℚ`.  The division by `pixels as f64` is embedded by `fdiv`, which marks
the `0.0 / 0.0 = NaN` outcome of a zero-pixel raster explicitly (for
`pixels = 0` the loop body never runs, so every numerator is `0.0`); on the
concrete inputs the claims evaluate, the quotients are dyadic and f64 division
is exact.  The list accesses use `getD _ 0`: for `pixels ≥ 1` every index
`i + 2 ≤ pixels + 1 < 3 * pixels` is in bounds, so the Rust indexing cannot
panic and the default is never taken. -/

/-- An `f64` restricted to the values reachable in the settled claims: an
exactly-represented rational, or NaN. -/
inductive F where
  | real (q : ℚ)
  | nan
deriving DecidableEq

/-- Rust `f64` division of an exact sum by `pixels as f64`: NaN when
`pixels = 0` (the numerator is then `0.0`, giving `0.0 / 0.0`), exact
otherwise on the dyadic inputs the claims evaluate. -/
def fdiv (a : ℚ) (pixels : Nat) : F :=
  if pixels = 0 then F.nan else F.real (a / pixels)

/-- The accumulation loop in `Hue::find`: for `i in 0..pixels`, add
`bytes[i]`, `bytes[i + 1]`, `bytes[i + 2]` to the three components.  Note the
indices: this is the source's actual (sliding-window) indexing, not a
per-channel `3 * i` indexing. -/
def hueSums (bytes : List Nat) : ℚ × ℚ × ℚ :=
  let pixels := bytes.length / 3
  (List.range pixels).foldl
    (fun (c : ℚ × ℚ × ℚ) i =>
      (c.1 + (bytes.getD i 0 : Nat),
       c.2.1 + (bytes.getD (i + 1) 0 : Nat),
       c.2.2 + (bytes.getD (i + 2) 0 : Nat)))
    (0, 0, 0)

/-- The mean color computed by `Hue::find`: the three accumulated sums, each
divided by `pixels as f64`. -/
def hueMeanColor (bytes : List Nat) : F × F × F :=
  let pixels := bytes.length / 3
  let sums := hueSums bytes
  (fdiv sums.1 pixels, fdiv sums.2.1 pixels, fdiv sums.2.2 pixels)

/-- Modelled from the spec: the RGB→HSV hue conversion is performed by the
external `prisma` crate, whose code is not part of this repository; the spec
prescribes "a standard formula".  This is the standard raw HSV hue in degrees
(possibly outside [0, 360); the spec's step (c) normalizes it afterwards). -/
def hsvHueDeg (r g b : ℚ) : ℚ :=
  let mx := max r (max g b)
  let mn := min r (min g b)
  let d := mx - mn
  if d = 0 then 0
  else if mx = r then 60 * ((g - b) / d)
  else if mx = g then 60 * ((b - r) / d + 2)
  else 60 * ((r - g) / d + 4)

/-- Modelled from the spec: `Hue::new` normalizes through
`angle::Angle::normalize`, an external crate function; the spec prescribes
wrapping modulo 360 into [0, 360).  Over the reals that is
`a - 360 * ⌊a / 360⌋`. -/
def hueNew (a : ℚ) : ℚ :=
  a - 360 * ⌊a / 360⌋

/-- Function `Hue::find` end to end over the raw RGB byte buffer: mean color, then HSV
hue, then `Hue::new` normalization.  A NaN mean component propagates: the HSV
conversion and the normalization of NaN are NaN, and no error is raised
anywhere on this path (the function's return type has no error case). -/
def hueFind (bytes : List Nat) : F :=
  match hueMeanColor bytes with
  | (F.real r, F.real g, F.real b) => F.real (hueNew (hsvHueDeg r g b))
  | _ => F.nan

/-- Modelled from the spec: the error-handling design of section 7, for
comparison with the code.  "The only core-level failure is an InvalidInput
condition: a raster with zero pixels, from which no mean or hue can be
computed." -/
inductive InvalidInput where
  | invalidInput
deriving DecidableEq

/-- Modelled from the spec: `hue(raster) -> Hue`, failing with `InvalidInput`
exactly on a raster with zero pixels. -/
def hueSpecE (bytes : List Nat) : Except InvalidInput F :=
  if bytes.length / 3 = 0 then Except.error InvalidInput.invalidInput
  else Except.ok (hueFind bytes)

/-- Modelled from the spec, for comparison with `hueSums`: step (a) of the
HueExtractor algorithm, "compute the arithmetic mean of each of the R, G, B
channels across all pixels": the per-channel sums, reading pixel `i` at
indices `3 * i`, `3 * i + 1`, `3 * i + 2` of the row-major RGB byte buffer. -/
def hueSumsSpec (bytes : List Nat) : ℚ × ℚ × ℚ :=
  let pixels := bytes.length / 3
  (List.range pixels).foldl
    (fun (c : ℚ × ℚ × ℚ) i =>
      (c.1 + (bytes.getD (3 * i) 0 : Nat),
       c.2.1 + (bytes.getD (3 * i + 1) 0 : Nat),
       c.2.2 + (bytes.getD (3 * i + 2) 0 : Nat)))
    (0, 0, 0)

/-- Modelled from the spec: the `hamming_distance(Fingerprint, Fingerprint)`
operation, "popcount(A XOR B)".  No function in `src/` computes it; the
`LsHash` doc comment only names the concept ("it is supposed to be compared
with other hashes only by using Equality or Hamming distance"). -/
def hammingDistance (a b : Nat) : Nat :=
  popcount64 (a ^^^ b)

/-! ## Basic lemmas -/

/-- A value below `2 ^ 64` has popcount 0 exactly when it is 0. -/
lemma popcount64_eq_zero_iff {x : Nat} (hx : x < 2 ^ 64) :
    popcount64 x = 0 ↔ x = 0 := by
  unfold popcount64
  rw [List.length_eq_zero, List.filter_eq_nil_iff]
  constructor
  · intro h
    refine Nat.eq_of_testBit_eq fun i => ?_
    rcases lt_or_le i 64 with hi | hi
    · have := h i (List.mem_range.mpr hi)
      simp_all
    · rw [Nat.testBit_lt_two_pow (lt_of_lt_of_le hx (Nat.pow_le_pow_right (by norm_num) hi))]
      simp
  · rintro rfl i _
    simp

/-- The hand-written `PartialOrd` never answers `Some(Equal)`: comparing any
hash with itself already yields `None`. -/
lemma lsPartialCmp_self_eq_none (a : Nat) : lsPartialCmp a a = none := by
  simp [lsPartialCmp]

/-- Little-endian value of the bit sequence produced by comparing each sample
against the mean: the mathematical reading of the packing fold. -/
def bitsVal (l : List Nat) (mean : Nat) : Nat :=
  match l with
  | [] => 0
  | v :: rest => (if v ≥ mean then 1 else 0) + 2 * bitsVal rest mean

lemma lshashFoldAux (mean : Nat) :
    ∀ (l : List Nat) (c acc : Nat),
      (l.foldl
        (fun (p : Nat × Nat) v =>
          (p.1 + 1, p.2 + (if v ≥ mean then 1 else 0) * 2 ^ p.1))
        (c, acc)).2 = acc + 2 ^ c * bitsVal l mean := by
  intro l
  induction l with
  | nil => intro c acc; simp [bitsVal]
  | cons v rest ih =>
    intro c acc
    simp only [List.foldl_cons]
    rw [ih]
    simp only [bitsVal]
    ring

/-- The packing fold computes exactly the little-endian bit value. -/
lemma lshashFold_eq (l : List Nat) (mean : Nat) :
    lshashFold l mean = bitsVal l mean := by
  unfold lshashFold
  rw [lshashFoldAux]
  simp

lemma bitsVal_lt (l : List Nat) (mean : Nat) : bitsVal l mean < 2 ^ l.length := by
  induction l with
  | nil => simp [bitsVal]
  | cons v rest ih =>
    have h2 : (0 : Nat) < 2 ^ rest.length := Nat.pos_pow_of_pos _ (by norm_num)
    simp only [bitsVal, List.length_cons, pow_succ]
    split <;> omega

/-- Bit *i* of the packed value is the comparison of sample *i* against the
mean, in the same scan order as the sample list. -/
lemma bitsVal_testBit :
    ∀ (l : List Nat) (mean i : Nat), i < l.length →
      (bitsVal l mean).testBit i = decide (l.getD i 0 ≥ mean) := by
  intro l
  induction l with
  | nil => intro mean i hi; simp at hi
  | cons v rest ih =>
    intro mean i hi
    match i with
    | 0 =>
      simp only [bitsVal, List.getD_cons_zero, Nat.testBit_zero,
        Nat.add_mul_mod_self_left]
      split <;> simp_all
    | i + 1 =>
      have hdiv : ((if v ≥ mean then 1 else 0) + 2 * bitsVal rest mean) / 2
          = bitsVal rest mean := by
        split <;> omega
      rw [List.getD_cons_succ, ← ih mean i (by simpa using hi)]
      simp only [bitsVal, Nat.testBit_succ, hdiv]

lemma sumSamplesAux :
    ∀ (l : List Nat) (acc : Nat), l.foldl (fun a v => a + v) acc = acc + sumSamples l := by
  intro l
  induction l with
  | nil => intro acc; simp [sumSamples]
  | cons v rest ih =>
    intro acc
    simp only [sumSamples, List.foldl_cons] at *
    rw [ih, ih (0 + v)]
    omega

lemma sumSamples_cons (v : Nat) (l : List Nat) :
    sumSamples (v :: l) = v + sumSamples l := by
  simp only [sumSamples, List.foldl_cons]
  simpa using sumSamplesAux l (0 + v)

/-- The u64 summation accumulator is bounded by `length * 255` on byte
samples. -/
lemma sumSamples_le (l : List Nat) (hb : ∀ v ∈ l, v ≤ 255) :
    sumSamples l ≤ l.length * 255 := by
  induction l with
  | nil => simp [sumSamples]
  | cons v rest ih =>
    have hv := hb v (by simp)
    have hr := ih fun x hx => hb x (by simp [hx])
    rw [sumSamples_cons]
    simp only [List.length_cons]
    omega

lemma sumSamples_replicate (n v : Nat) :
    sumSamples (List.replicate n v) = n * v := by
  induction n with
  | zero => simp [sumSamples]
  | succ n ih =>
    rw [List.replicate_succ, sumSamples_cons, ih]
    ring

lemma bitsVal_replicate_self (n v : Nat) :
    bitsVal (List.replicate n v) v = 2 ^ n - 1 := by
  induction n with
  | zero => simp [bitsVal]
  | succ n ih =>
    have h1 : (1 : Nat) ≤ 2 ^ n := Nat.one_le_two_pow
    rw [List.replicate_succ]
    simp only [bitsVal, ge_iff_le, le_refl, if_pos, ih, pow_succ]
    omega

/-! ## C1 — equal-popcount, different-pattern fingerprints make the whole
feature vector Incomparable, independent of the hues -/

/-- C1: for feature vectors whose fingerprints have equal popcount but differ
in bit pattern, the derived `ImgFeatures` comparison is `None` (Incomparable)
whatever the two hue values are — the hue fields are never consulted. -/
theorem c1_tie_incomparable_hue_ignored (a b : Nat) (hueA hueB : ℚ)
    (hpop : popcount64 a = popcount64 b) (_hne : a ≠ b) :
    imgFeaturesPartialCmp ⟨a, hueA⟩ ⟨b, hueB⟩ = none := by
  simp [imgFeaturesPartialCmp, lsPartialCmp, hpop]

/-- Witness for C1 at fingerprints `0b01` and `0b10` (popcount 1 each) with
hues 10 and 5. -/
theorem c1_tie_incomparable_hue_ignored_witness :
    popcount64 1 = popcount64 2 ∧ (1 : Nat) ≠ 2 ∧
      imgFeaturesPartialCmp ⟨1, 10⟩ ⟨2, 5⟩ = none :=
  ⟨by decide, by decide, c1_tie_incomparable_hue_ignored 1 2 10 5 (by decide) (by decide)⟩

/-! ## C2 — the claimed hue tiebreak on bit-exact equal fingerprints does not
happen in the code -/

/-- C2 (code bug, evaluation at the failing input): two feature vectors with
bit-exact equal fingerprints (`0b1`) and hues 10 and 5.  The spec says the
hue total order decides (`Greater` here); the code yields `None`
(Incomparable), because `LsHash::partial_cmp` answers `None` on every equal
popcount — even for bit-identical hashes — so the derived `ImgFeatures`
comparison never reaches the hue field.  The derived `PartialEq` still calls
the hashes equal, so the code also violates Rust's `PartialOrd`/`PartialEq`
consistency contract. -/
theorem c2_equal_fingerprints_hue_not_consulted :
    imgFeaturesPartialCmp ⟨1, 10⟩ ⟨1, 5⟩ = none ∧
      lsBeq 1 1 = true ∧ lsPartialCmp 1 1 = none ∧
      compare (10 : ℚ) 5 = Ordering.gt := by
  refine ⟨?_, by decide, lsPartialCmp_self_eq_none 1, by decide⟩
  simp [imgFeaturesPartialCmp, lsPartialCmp]

/-! ## C3 — the popcount partial order on fingerprints -/

/-- C3: the fingerprint comparison is decided by popcount: strictly fewer set
bits is `Less`, strictly more is `Greater`; with equal popcounts but different
bit patterns the pair is Incomparable (`partial_cmp` is `None` both ways, so
neither `A < B` nor `B > A` holds) and `A == B` is false. -/
theorem c3_popcount_partial_order (a b : Nat) :
    (popcount64 a < popcount64 b → lsPartialCmp a b = some Ordering.lt) ∧
    (popcount64 b < popcount64 a → lsPartialCmp a b = some Ordering.gt) ∧
    (popcount64 a = popcount64 b → a ≠ b →
      lsPartialCmp a b = none ∧ lsPartialCmp b a = none ∧ lsBeq a b = false) := by
  refine ⟨fun h => by simp [lsPartialCmp, h], fun h => ?_, fun he hne => ?_⟩
  · have h1 : ¬ popcount64 a < popcount64 b := by omega
    simp [lsPartialCmp, h, h1]
  · refine ⟨by simp [lsPartialCmp, he], by simp [lsPartialCmp, he], ?_⟩
    simpa [lsBeq] using hne

/-- Witness for C3: popcounts 1 < 2 give `Less`, 2 > 1 give `Greater`, and
the equal-popcount pair `0b01`, `0b10` is Incomparable and not equal. -/
theorem c3_popcount_partial_order_witness :
    lsPartialCmp 1 3 = some Ordering.lt ∧
      lsPartialCmp 3 1 = some Ordering.gt ∧
      (lsPartialCmp 1 2 = none ∧ lsPartialCmp 2 1 = none ∧ lsBeq 1 2 = false) :=
  ⟨(c3_popcount_partial_order 1 3).1 (by decide),
   (c3_popcount_partial_order 3 1).2.1 (by decide),
   (c3_popcount_partial_order 1 2).2.2 (by decide) (by decide)⟩

/-! ## C6 — the fingerprint is the mean-threshold bit pattern of the 64
samples, packed in scan order -/

/-- C6: on a 64-sample reduced sequence of bytes, the extractor computes the
floor mean `sum / 64` (the u64 accumulator cannot overflow: the sum fits),
the packed value fits in 64 bits, and bit *i* of the fingerprint is 1 exactly
when `samples[i] >= mean`, for every `i < 64`, in the same scan order as the
samples. -/
theorem c6_fingerprint_bit_characterization (samples : List Nat)
    (h64 : samples.length = 64) (hb : ∀ v ∈ samples, v ≤ 255) :
    sumSamples samples < 2 ^ 64 ∧
    meanSamples samples = sumSamples samples / 64 ∧
    lshashFind samples < 2 ^ 64 ∧
    ∀ i < 64, (lshashFind samples).testBit i
        = decide (samples.getD i 0 ≥ meanSamples samples) := by
  have hsum : sumSamples samples ≤ 64 * 255 := by
    have := sumSamples_le samples hb
    omega
  refine ⟨by omega, rfl, ?_, fun i hi => ?_⟩
  · have := bitsVal_lt samples (meanSamples samples)
    rw [lshashFind, lshashFold_eq, ← h64]
    exact this
  · rw [lshashFind, lshashFold_eq]
    exact bitsVal_testBit samples (meanSamples samples) i (by omega)

/-- Witness for C6 on the concrete sample list `0, 1, ..., 63` (sum 2016,
mean 31): bit 5 is clear (5 < 31) and bit 40 is set (40 ≥ 31). -/
theorem c6_fingerprint_bit_characterization_witness :
    (List.range 64).length = 64 ∧ (∀ v ∈ List.range 64, v ≤ 255) ∧
      ((lshashFind (List.range 64)).testBit 5
          = decide ((List.range 64).getD 5 0 ≥ meanSamples (List.range 64)) ∧
        (lshashFind (List.range 64)).testBit 40
          = decide ((List.range 64).getD 40 0 ≥ meanSamples (List.range 64))) :=
  ⟨by decide, by decide,
   (c6_fingerprint_bit_characterization (List.range 64) (by decide)
      (by decide)).2.2.2 5 (by decide),
   (c6_fingerprint_bit_characterization (List.range 64) (by decide)
      (by decide)).2.2.2 40 (by decide)⟩

/-! ## C8 — a uniform reduction yields the all-ones fingerprint -/

/-- C8: when all 64 byte samples are equal, the mean equals the common value,
the `>=` comparison ties everywhere, and the fingerprint has all 64 bits set:
`2 ^ 64 - 1 = 0xFFFFFFFFFFFFFFFF`. -/
theorem c8_uniform_all_bits_set (v : Nat) (_hv : v ≤ 255) :
    lshashFind (List.replicate 64 v) = 2 ^ 64 - 1 := by
  have hmean : meanSamples (List.replicate 64 v) = v := by
    rw [meanSamples, sumSamples_replicate]
    exact Nat.mul_div_cancel_left v (by norm_num)
  rw [lshashFind, hmean, lshashFold_eq, bitsVal_replicate_self]

/-- Witness for C8 at the uniform sample value 200. -/
theorem c8_uniform_all_bits_set_witness :
    (200 : Nat) ≤ 255 ∧ lshashFind (List.replicate 64 200) = 2 ^ 64 - 1 :=
  ⟨by decide, c8_uniform_all_bits_set 200 (by decide)⟩

/-! ## C10 — the mean of 64 byte samples fits in a u8, so the `expect` cannot
panic -/

/-- C10: on 64 byte samples the u64 summation accumulator holds at most
`64 * 255 = 16320`, the integer mean is at most 255, and `u8::try_from`
succeeds — the `expect(...)` in `LsHash::find` can never panic. -/
theorem c10_mean_fits_u8 (samples : List Nat)
    (h64 : samples.length = 64) (hb : ∀ v ∈ samples, v ≤ 255) :
    sumSamples samples ≤ 16320 ∧ meanSamples samples ≤ 255 ∧
      tryFromU8 (meanSamples samples) = some (meanSamples samples) := by
  have hsum : sumSamples samples ≤ 16320 := by
    have := sumSamples_le samples hb
    omega
  have hmean : meanSamples samples ≤ 255 := by
    rw [meanSamples]
    omega
  exact ⟨hsum, hmean, by rw [tryFromU8, if_pos hmean]⟩

/-- Witness for C10 at the extreme all-255 sample list (sum exactly 16320,
mean exactly 255). -/
theorem c10_mean_fits_u8_witness :
    (List.replicate 64 255).length = 64 ∧ (∀ v ∈ List.replicate 64 255, v ≤ 255) ∧
      (sumSamples (List.replicate 64 255) ≤ 16320 ∧
        meanSamples (List.replicate 64 255) ≤ 255 ∧
        tryFromU8 (meanSamples (List.replicate 64 255))
          = some (meanSamples (List.replicate 64 255))) :=
  ⟨by decide, by decide,
   c10_mean_fits_u8 (List.replicate 64 255) (by decide) (by decide)⟩

/-! ## C4 — error handling: the code has no InvalidInput failure -/

/-- C4 (counterexample): on the zero-pixel raster the spec-modelled interface
fails with `InvalidInput`, but the code's hue extraction returns a value — the
NaN produced by the `0.0 / 0.0` division — because `Hue::find` has no error
path at all (its return type is `Hue`, not a `Result`). -/
theorem c4_empty_raster_counterexample :
    hueFind [] = F.nan ∧
      hueSpecE [] = Except.error InvalidInput.invalidInput := by
  constructor
  · rfl
  · rfl

/-- C4 (amended): the extractors never raise an error.  The hue extraction
returns the NaN value exactly on rasters with zero pixels (fewer than 3
bytes) and a real value otherwise, and the only internal failure point of the
fingerprint extraction — the `u8` conversion guarded by `expect` — succeeds
on every 64-sample byte reduction. -/
theorem c4_extractors_never_fail (bytes samples : List Nat)
    (h64 : samples.length = 64) (hbs : ∀ v ∈ samples, v ≤ 255) :
    (hueFind bytes = F.nan ↔ bytes.length / 3 = 0) ∧
      (tryFromU8 (meanSamples samples)).isSome = true := by
  constructor
  · unfold hueFind hueMeanColor fdiv
    rcases Nat.eq_zero_or_pos (bytes.length / 3) with h | h
    · simp [h]
    · have h0 : bytes.length / 3 ≠ 0 := by omega
      simp [h0]
  · have hsum := sumSamples_le samples hbs
    rw [h64] at hsum
    have hm : meanSamples samples ≤ 255 := by
      rw [meanSamples]
      omega
    simp [tryFromU8, hm]

/-- Witness for C4 (amended) at the empty raster and the all-zero sample
reduction. -/
theorem c4_extractors_never_fail_witness :
    (List.replicate 64 0).length = 64 ∧ (∀ v ∈ List.replicate 64 0, v ≤ 255) ∧
      ((hueFind [] = F.nan ↔ ([] : List Nat).length / 3 = 0) ∧
        (tryFromU8 (meanSamples (List.replicate 64 0))).isSome = true) :=
  ⟨by decide, by decide,
   c4_extractors_never_fail [] (List.replicate 64 0) (by decide) (by decide)⟩

/-! ## C5 — the hue loop does not compute per-channel means -/

/-- C5 (code bug, evaluation at the failing input): on the 2-pixel uniform
pure-red raster `[255, 0, 0, 255, 0, 0]`, the code's loop — which reads
`bytes[i]`, `bytes[i + 1]`, `bytes[i + 2]` for `i in 0..pixels` instead of
the per-pixel offsets `3 * i`, `3 * i + 1`, `3 * i + 2` — accumulates channel
sums `(255, 0, 255)` where the spec's per-channel sums are `(510, 0, 0)`.
The code's mean color is the magenta `(127.5, 0, 127.5)` with hue 300°; the
spec's algorithm gives the pure red `(255, 0, 0)` with hue 0°. -/
theorem c5_hue_indexing_diverges :
    hueSums [255, 0, 0, 255, 0, 0] = (255, 0, 255) ∧
      hueSumsSpec [255, 0, 0, 255, 0, 0] = (510, 0, 0) ∧
      hueMeanColor [255, 0, 0, 255, 0, 0]
        = (F.real (255 / 2), F.real 0, F.real (255 / 2)) ∧
      hueFind [255, 0, 0, 255, 0, 0] = F.real 300 ∧
      hueNew (hsvHueDeg 255 0 0) = 0 := by
  have h : hueMeanColor [255, 0, 0, 255, 0, 0]
      = (F.real (255 / 2), F.real 0, F.real (255 / 2)) := by
    norm_num [hueMeanColor, hueSums, List.range_succ, fdiv]
  refine ⟨?_, ?_, h, ?_, ?_⟩
  · norm_num [hueSums, List.range_succ]
  · norm_num [hueSumsSpec, List.range_succ]
  · rw [hueFind, h]
    norm_num [hsvHueDeg, hueNew]
  · norm_num [hsvHueDeg, hueNew]

/-! ## C7 — every hue value lies in [0, 360) -/

/-- C7: normalization wraps any raw angle into [0, 360), and consequently
every real hue the extraction returns lies in [0, 360).  (The wrap itself is
`angle::Angle::normalize`, external to the repository, modelled from the spec
as subtraction of the floored multiple of 360.) -/
theorem c7_hue_normalized_range :
    (∀ a : ℚ, 0 ≤ hueNew a ∧ hueNew a < 360) ∧
      ∀ (bytes : List Nat) (q : ℚ), hueFind bytes = F.real q →
        0 ≤ q ∧ q < 360 := by
  have key : ∀ a : ℚ, 0 ≤ hueNew a ∧ hueNew a < 360 := by
    intro a
    rw [hueNew]
    have h1 : (⌊a / 360⌋ : ℚ) ≤ a / 360 := Int.floor_le _
    have h2 : a / 360 < ⌊a / 360⌋ + 1 := Int.lt_floor_add_one _
    have h3 : (360 : ℚ) * (a / 360) = a := by
      field_simp
    constructor <;> nlinarith
  refine ⟨key, fun bytes q hq => ?_⟩
  unfold hueFind at hq
  rcases hmc : hueMeanColor bytes with ⟨fr, fg, fb⟩
  rw [hmc] at hq
  cases fr with
  | nan => simp at hq
  | real r =>
    cases fg with
    | nan => simp at hq
    | real g =>
      cases fb with
      | nan => simp at hq
      | real b =>
        simp only [F.real.injEq] at hq
        exact hq ▸ key (hsvHueDeg r g b)

/-- Witness for C7 at the one-pixel pure-red raster, whose hue is 0. -/
theorem c7_hue_normalized_range_witness :
    hueFind [255, 0, 0] = F.real 0 ∧ (0 : ℚ) ≤ 0 ∧ (0 : ℚ) < 360 := by
  have h : hueFind [255, 0, 0] = F.real 0 := by
    have hm : hueMeanColor [255, 0, 0] = (F.real 255, F.real 0, F.real 0) := by
      norm_num [hueMeanColor, hueSums, List.range_succ, fdiv]
    rw [hueFind, hm]
    norm_num [hsvHueDeg, hueNew]
  exact ⟨h, c7_hue_normalized_range.2 [255, 0, 0] 0 h⟩

/-! ## C9 — Hamming distance as its own operation -/

/-- C9: the Hamming distance (spec-modelled: no function in `src/` computes
it) equals `popcount(A XOR B)`, is symmetric, and is zero exactly on
bit-exact equal fingerprints — a similarity metric on the full bit pattern,
unlike the comparator, which only sees the two popcounts. -/
theorem c9_hamming_distance_characterization (a b : Nat)
    (ha : a < 2 ^ 64) (hb : b < 2 ^ 64) :
    hammingDistance a b = popcount64 (a ^^^ b) ∧
      hammingDistance a b = hammingDistance b a ∧
      (hammingDistance a b = 0 ↔ a = b) := by
  refine ⟨rfl, by rw [hammingDistance, hammingDistance, Nat.xor_comm], ?_⟩
  have hxor : a ^^^ b < 2 ^ 64 := Nat.xor_lt_two_pow ha hb
  rw [hammingDistance, popcount64_eq_zero_iff hxor]
  exact Nat.xor_eq_zero

/-- Witness for C9 at the fingerprints 5 and 9 (distance 2). -/
theorem c9_hamming_distance_characterization_witness :
    (5 : Nat) < 2 ^ 64 ∧ (9 : Nat) < 2 ^ 64 ∧
      (hammingDistance 5 9 = popcount64 (5 ^^^ 9) ∧
        hammingDistance 5 9 = hammingDistance 9 5 ∧
        (hammingDistance 5 9 = 0 ↔ (5 : Nat) = 9)) :=
  ⟨by decide, by decide,
   c9_hamming_distance_characterization 5 9 (by decide) (by decide)⟩

end Succotash
